import Mathlib

/-!
# Shallow embedding of `pytorch-fitmodule`

This file embeds the training/prediction orchestration logic of
`src/pytorch_fitmodule/fit_module.py` (class `FitModule` with methods `fit` and
`predict`) and proves the spec's testable properties about it.

Modelling conventions:
* tensors are `List`s of rows (a 2-D tensor is a `List (List ℚ)`);
* Python floats are modelled as `ℚ`;
* the external collaborators (forward pass, loss function, numpy RNG) are
  parameters of the embedded functions;
* fallible behaviour (Python exceptions such as an unbound local) is modelled
  with `Option`.
-/

namespace FitModule

/-- Modelled from the spec: `make_batches` is imported by `fit_module.py` from
`pytorch_fitmodule/utils.py`, a file of this repository that is not among the
provided sources.  Per the spec (§4.3, §8) it takes a total sample count `n`
and a batch size `b` and produces the ordered sequence of `⌈n/b⌉` half-open
index ranges, each of length at most `b`, covering `0..n` with only the final
range possibly smaller; for `n = 10`, `b = 3` it yields
`(0,3),(3,6),(6,9),(9,10)`.  The `i`-th range is `(i*b, min n ((i+1)*b))`. -/
def make_batches (n b : ℕ) : List (ℕ × ℕ) :=
  (List.range ((n + b - 1) / b)).map fun i => (i * b, min n ((i + 1) * b))

lemma make_batches_length (n b : ℕ) :
    (make_batches n b).length = (n + b - 1) / b := by
  simp [make_batches]

lemma make_batches_zero (b : ℕ) : make_batches 0 b = [] := by
  have h : (0 + b - 1) / b = 0 := by
    rcases Nat.eq_zero_or_pos b with h0 | h0
    · subst h0
      rfl
    · exact Nat.div_eq_of_lt (by omega)
  unfold make_batches
  rw [h]
  rfl

/-- Peeling recurrence: for `0 < n` the batch list is the first range
`(0, min n b)` followed by the batches of the remaining `n - b` samples,
shifted up by `b`. -/
lemma make_batches_cons {n b : ℕ} (hb : 0 < b) (hn : 0 < n) :
    make_batches n b =
      (0, min n b) :: (make_batches (n - b) b).map (fun p => (p.1 + b, p.2 + b)) := by
  have hk : (n + b - 1) / b = (n - 1) / b + 1 := by
    have h1 : n + b - 1 = (n - 1) + b := by omega
    rw [h1, Nat.add_div_right _ hb]
  have hk' : (n - b + b - 1) / b = (n - 1) / b := by
    rcases Nat.le_total b n with h | h
    · congr 1
      omega
    · have h0 : n - b = 0 := by omega
      rw [h0]
      rw [Nat.div_eq_of_lt (by omega), Nat.div_eq_of_lt (by omega)]
  unfold make_batches
  rw [hk, hk', List.range_succ_eq_map, List.map_cons, List.map_map, List.map_map]
  refine congrArg₂ _ (by simp) ?_
  apply List.map_congr_left
  intro i hi
  rcases Nat.le_total b n with h | h
  · have e1 : Nat.succ i * b = i * b + b := Nat.succ_mul i b
    have e2 : (Nat.succ i + 1) * b = i * b + b + b := by
      rw [add_one_mul, Nat.succ_mul]
    have e3 : (i + 1) * b = i * b + b := add_one_mul i b
    simp only [Function.comp_apply, e1, e2, e3]
    refine Prod.ext rfl ?_
    show min n (i * b + b + b) = min (n - b) (i * b + b) + b
    generalize i * b = m
    omega
  · exfalso
    have h0 : (n - 1) / b = 0 := Nat.div_eq_of_lt (by omega)
    rw [h0] at hi
    simp at hi

/-- Coverage: concatenating the half-open ranges produced by `make_batches`
yields exactly the index list `0, 1, ..., n-1`, in order. -/
lemma make_batches_flatten {b : ℕ} (hb : 0 < b) :
    ∀ n, ((make_batches n b).map (fun p => List.range' p.1 (p.2 - p.1))).flatten
      = List.range n := by
  intro n
  induction n using Nat.strong_induction_on with
  | _ n ih =>
    rcases Nat.eq_zero_or_pos n with h0 | hn
    · subst h0
      simp [make_batches_zero]
    · rw [make_batches_cons hb hn, List.map_cons, List.flatten_cons, List.map_map]
      have hshift :
          ((fun p : ℕ × ℕ => List.range' p.1 (p.2 - p.1)) ∘ fun p : ℕ × ℕ => (p.1 + b, p.2 + b))
            = List.map (fun j => b + j) ∘ (fun p : ℕ × ℕ => List.range' p.1 (p.2 - p.1)) := by
        funext p
        simp only [Function.comp_apply]
        rw [List.map_add_range']
        have h1 : p.2 + b - (p.1 + b) = p.2 - p.1 := by omega
        rw [h1]
        congr 1
        omega
      rw [hshift, ← List.map_map, ← List.map_flatten, ih (n - b) (by omega)]
      show List.range' 0 (min n b - 0) ++ List.map (fun j => b + j) (List.range (n - b))
          = List.range n
      rw [Nat.sub_zero, List.range_eq_range', List.map_add_range', Nat.add_zero]
      rcases Nat.le_total n b with h | h
      · have h1 : min n b = n := by omega
        have h2 : n - b = 0 := by omega
        rw [h1, h2]
        simp [← List.range_eq_range']
      · have h1 : min n b = b := by omega
        rw [h1]
        have h2 := List.range'_append 0 b (n - b) 1
        simp only [Nat.one_mul, Nat.zero_add] at h2
        rw [h2, ← List.range_eq_range']
        congr 1
        omega

/-- `Adjacent s bs n`: the ranges in `bs` are consecutive nonempty half-open
intervals running from `s` up to exactly `n`, each ending within `n`. -/
def Adjacent : ℕ → List (ℕ × ℕ) → ℕ → Prop
  | s, [], n => s = n
  | s, p :: rest, n => p.1 = s ∧ s < p.2 ∧ p.2 ≤ n ∧ Adjacent p.2 rest n

lemma adjacent_shift (b : ℕ) : ∀ (bs : List (ℕ × ℕ)) (s n : ℕ), Adjacent s bs n →
    Adjacent (s + b) (bs.map fun p => (p.1 + b, p.2 + b)) (n + b) := by
  intro bs
  induction bs with
  | nil =>
    intro s n h
    simp only [Adjacent] at h ⊢
    simp [h]
  | cons p rest ih =>
    intro s n h
    simp only [Adjacent] at h ⊢
    obtain ⟨h1, h2, h3, h4⟩ := h
    exact ⟨by omega, by omega, by omega, ih p.2 n h4⟩

lemma make_batches_adjacent {b : ℕ} (hb : 0 < b) :
    ∀ n, Adjacent 0 (make_batches n b) n := by
  intro n
  induction n using Nat.strong_induction_on with
  | _ n ih =>
    rcases Nat.eq_zero_or_pos n with h0 | hn
    · subst h0
      rw [make_batches_zero]
      simp [Adjacent]
    · rw [make_batches_cons hb hn]
      simp only [Adjacent]
      refine ⟨by simp, by omega, by omega, ?_⟩
      rcases Nat.le_total n b with h | h
      · have h1 : min n b = n := by omega
        have h2 : n - b = 0 := by omega
        rw [h1, h2, make_batches_zero]
        simp [Adjacent]
      · have h1 : min n b = b := by omega
        have h2 := adjacent_shift b (make_batches (n - b) b) 0 (n - b)
          (ih (n - b) (by omega))
        rw [Nat.zero_add, Nat.sub_add_cancel h] at h2
        rw [h1]
        exact h2

/-- Python slice `xs[s:e]` with `0 ≤ s ≤ e` (as used with the batch ranges in
`fit_module.py` lines 101 and 147). -/
def listSlice {α : Type} (x : List α) (s e : ℕ) : List α :=
  (x.drop s).take (e - s)

lemma flatten_slices {α : Type} (x : List α) :
    ∀ (bs : List (ℕ × ℕ)) (s : ℕ), Adjacent s bs x.length →
      (bs.map fun p => listSlice x p.1 p.2).flatten = x.drop s := by
  intro bs
  induction bs with
  | nil =>
    intro s h
    simp only [Adjacent] at h
    subst h
    simp
  | cons p rest ih =>
    intro s h
    simp only [Adjacent] at h
    obtain ⟨h1, h2, h3, h4⟩ := h
    rw [List.map_cons, List.flatten_cons, ih p.2 h4]
    subst h1
    unfold listSlice
    have hd : x.drop p.2 = (x.drop p.1).drop (p.2 - p.1) := by
      rw [List.drop_drop]
      congr 1
      omega
    rw [hd, List.take_append_drop]

lemma make_batches_getD {n b : ℕ} {i : ℕ} (hi : i < (n + b - 1) / b) :
    (make_batches n b).getD i (0, 0) = (i * b, min n ((i + 1) * b)) := by
  unfold make_batches
  rw [List.getD_eq_getElem?_getD, List.getElem?_map, List.getElem?_range hi]
  rfl

lemma div_mul_le {n b i : ℕ} (hi : i ≤ (n - 1) / b) : i * b ≤ n - 1 := by
  calc i * b ≤ (n - 1) / b * b := Nat.mul_le_mul_right b hi
    _ ≤ n - 1 := Nat.div_mul_le_self _ _

lemma ceil_div_eq {n b : ℕ} (hb : 0 < b) (hn : 0 < n) :
    (n + b - 1) / b = (n - 1) / b + 1 := by
  have h1 : n + b - 1 = (n - 1) + b := by omega
  rw [h1, Nat.add_div_right _ hb]

/-- C1: for every sample count `N > 0` and batch size `B > 0`, `make_batches`
yields `⌈N/B⌉` ordered half-open index ranges that cover `0..N` exactly once
(their concatenation, in order, is `0, …, N-1`), form a strictly increasing
adjacent chain, each have length at most `B` with every non-final range of
length exactly `B`; and for `N = 10`, `B = 3` the ranges are
`(0,3),(3,6),(6,9),(9,10)`. -/
theorem C1_make_batches_partition (n b : ℕ) (hn : 0 < n) (hb : 0 < b) :
    (make_batches n b).length = (n + b - 1) / b ∧
    ((make_batches n b).map fun p => List.range' p.1 (p.2 - p.1)).flatten
      = List.range n ∧
    List.Chain' (fun p q : ℕ × ℕ => p.1 < q.1 ∧ p.2 = q.1) (make_batches n b) ∧
    (∀ p ∈ make_batches n b, p.1 < p.2 ∧ p.2 - p.1 ≤ b) ∧
    (∀ i, i + 1 < (make_batches n b).length →
      ((make_batches n b).getD i (0, 0)).2 - ((make_batches n b).getD i (0, 0)).1 = b) ∧
    make_batches 10 3 = [(0, 3), (3, 6), (6, 9), (9, 10)] := by
  refine ⟨make_batches_length n b, make_batches_flatten hb n, ?_, ?_, ?_, by decide⟩
  · unfold make_batches
    rw [List.chain'_map, ceil_div_eq hb hn, List.chain'_range_succ]
    intro m hm
    have hle : (m + 1) * b ≤ n := by
      have h2 : (m + 1) * b ≤ n - 1 := div_mul_le (by omega)
      omega
    constructor
    · show m * b < Nat.succ m * b
      rw [Nat.succ_mul]
      omega
    · show min n ((m + 1) * b) = Nat.succ m * b
      rw [min_eq_right hle, Nat.succ_mul]
  · intro p hp
    unfold make_batches at hp
    obtain ⟨i, hi, rfl⟩ := List.mem_map.mp hp
    rw [List.mem_range, ceil_div_eq hb hn] at hi
    have h2 : i * b ≤ n - 1 := div_mul_le (by omega)
    have e1 : (i + 1) * b = i * b + b := add_one_mul i b
    simp only [e1]
    constructor
    · show i * b < min n (i * b + b)
      generalize i * b = m at *
      omega
    · show min n (i * b + b) - i * b ≤ b
      generalize i * b = m at *
      omega
  · intro i hi
    rw [make_batches_length] at hi
    rw [make_batches_getD (by omega)]
    have hi' : i + 1 ≤ (n - 1) / b := by
      rw [ceil_div_eq hb hn] at hi
      omega
    have h2 : (i + 1) * b ≤ n - 1 := div_mul_le hi'
    have e1 : (i + 1) * b = i * b + b := add_one_mul i b
    show min n ((i + 1) * b) - i * b = b
    rw [e1] at h2 ⊢
    generalize i * b = m at *
    omega

/-- Witness for C1 at `N = 10`, `B = 3`. -/
theorem C1_witness :
    (make_batches 10 3).length = (10 + 3 - 1) / 3 ∧
    ((make_batches 10 3).map fun p => List.range' p.1 (p.2 - p.1)).flatten
      = List.range 10 ∧
    List.Chain' (fun p q : ℕ × ℕ => p.1 < q.1 ∧ p.2 = q.1) (make_batches 10 3) ∧
    (∀ p ∈ make_batches 10 3, p.1 < p.2 ∧ p.2 - p.1 ≤ 3) ∧
    (∀ i, i + 1 < (make_batches 10 3).length →
      ((make_batches 10 3).getD i (0, 0)).2 - ((make_batches 10 3).getD i (0, 0)).1 = 3) ∧
    make_batches 10 3 = [(0, 3), (3, 6), (6, 9), (9, 10)] :=
  C1_make_batches_partition 10 3 (by decide) (by decide)

/-- The per-epoch batch index lists of `fit`: each batch processes
`train_idxs[batch_start:batch_end]` (fit_module.py lines 91, 99-101), where
`perm` is the possibly shuffled `train_idxs` array of that epoch. -/
def epochBatches (perm : List ℕ) (b : ℕ) : List (List ℕ) :=
  (make_batches perm.length b).map fun p => listSlice perm p.1 p.2

/-- C2: in every epoch the batch index lists concatenate, in order, to exactly
the epoch's (possibly shuffled) index permutation, so every sample index
appears in exactly one batch and samples are visited in permutation order. -/
theorem C2_epoch_batches_partition (perm : List ℕ) (b : ℕ) (hb : 0 < b) :
    (epochBatches perm b).flatten = perm ∧
    (perm.Perm (List.range perm.length) →
      ∀ i < perm.length, (epochBatches perm b).flatten.count i = 1) := by
  have hmain : (epochBatches perm b).flatten = perm := by
    have h := flatten_slices perm (make_batches perm.length b) 0
      (make_batches_adjacent hb perm.length)
    simpa [epochBatches] using h
  refine ⟨hmain, ?_⟩
  intro hp i hi
  rw [hmain, hp.count_eq]
  exact List.count_eq_one_of_mem (List.nodup_range _) (List.mem_range.mpr hi)

/-- Witness for C2 on the shuffled permutation `[2, 0, 1]` with `B = 2`. -/
theorem C2_witness :
    (epochBatches [2, 0, 1] 2).flatten = [2, 0, 1] ∧
    (epochBatches [2, 0, 1] 2).flatten.count 0 = 1 := by
  have h := C2_epoch_batches_partition [2, 0, 1] 2 (by decide)
  exact ⟨h.1, h.2 (by decide) 0 (by decide)⟩

lemma make_batches_ne_nil {n b : ℕ} (hn : 0 < n) (hb : 0 < b) :
    make_batches n b ≠ [] := by
  rw [make_batches_cons hb hn]
  simp

/-- The batch sizes produced by `make_batches` sum to the sample count. -/
lemma make_batches_sizes_sum {b : ℕ} (hb : 0 < b) (n : ℕ) :
    ((make_batches n b).map fun p => p.2 - p.1).sum = n := by
  have h := congrArg List.length (make_batches_flatten hb n)
  rw [List.length_flatten, List.length_range, List.map_map] at h
  have h2 : (make_batches n b).map (List.length ∘ fun p : ℕ × ℕ => List.range' p.1 (p.2 - p.1))
      = (make_batches n b).map fun p : ℕ × ℕ => p.2 - p.1 := by
    apply List.map_congr_left
    intro p _
    simp [List.length_range']
  rw [h2] at h
  exact h

/-- The per-batch accumulator state of `fit`'s inner loop (fit_module.py
lines 95-97 and 111-114): `n_run` counts the samples processed so far,
`epoch_loss` accumulates the per-batch loss values, and `train_loss` is the
value stored under `log['train_loss']` (`none` before the first batch, since
`Log()` starts out empty). -/
structure BatchState where
  n_run : ℕ
  epoch_loss : ℚ
  train_loss : Option ℚ
deriving Repr, DecidableEq

/-- One iteration of `fit`'s batch loop acting on the accumulator, for a batch
range `p` whose collaborator-supplied loss value is `lossOf p`:
`n_run += batch_end - batch_start`, `epoch_loss += batch_loss.data[0]`,
`log['train_loss'] = float(epoch_loss) / n_run`. -/
def stepBatch (lossOf : ℕ × ℕ → ℚ) (st : BatchState) (p : ℕ × ℕ) : BatchState :=
  ⟨st.n_run + (p.2 - p.1), st.epoch_loss + lossOf p,
    some ((st.epoch_loss + lossOf p) / ((st.n_run + (p.2 - p.1) : ℕ) : ℚ))⟩

/-- Running `fit`'s inner batch loop over the batch list `bs`, starting from
`n_run = 0`, `epoch_loss = 0.0` and an empty log. -/
def runBatches (lossOf : ℕ × ℕ → ℚ) (bs : List (ℕ × ℕ)) : BatchState :=
  bs.foldl (stepBatch lossOf) ⟨0, 0, none⟩

lemma foldl_stepBatch (lossOf : ℕ × ℕ → ℚ) :
    ∀ (bs : List (ℕ × ℕ)) (st : BatchState),
      (bs.foldl (stepBatch lossOf) st).n_run
          = st.n_run + (bs.map fun p => p.2 - p.1).sum ∧
      (bs.foldl (stepBatch lossOf) st).epoch_loss
          = st.epoch_loss + (bs.map lossOf).sum ∧
      (bs ≠ [] → (bs.foldl (stepBatch lossOf) st).train_loss
        = some ((st.epoch_loss + (bs.map lossOf).sum)
            / ((st.n_run + (bs.map fun p => p.2 - p.1).sum : ℕ) : ℚ))) := by
  intro bs
  induction bs with
  | nil =>
    intro st
    exact ⟨by simp, by simp, by simp⟩
  | cons p rest ih =>
    intro st
    obtain ⟨ihn, ihl, iht⟩ := ih (stepBatch lossOf st p)
    rw [List.foldl_cons]
    refine ⟨?_, ?_, ?_⟩
    · rw [ihn]
      simp only [stepBatch, List.map_cons, List.sum_cons]
      omega
    · rw [ihl]
      simp only [stepBatch, List.map_cons, List.sum_cons]
      ring
    · intro _
      cases rest with
      | nil =>
        simp [stepBatch]
      | cons q rs =>
        rw [iht (by simp)]
        simp only [stepBatch, List.map_cons, List.sum_cons]
        congr 1
        have hd : ((st.n_run + (p.2 - p.1) + ((q.2 - q.1) + (rs.map fun p => p.2 - p.1).sum) : ℕ) : ℚ)
            = ((st.n_run + ((p.2 - p.1) + ((q.2 - q.1) + (rs.map fun p => p.2 - p.1).sum)) : ℕ) : ℚ) := by
          congr 1
          omega
        rw [← hd]
        ring_nf

/-- C3: after all batches of an epoch, `log['train_loss']` equals the summed
per-batch loss of the epoch divided by the total number of samples processed
(which is `n`), and after the `j`-th batch it equals the loss accumulated so
far divided by the number of samples processed so far. -/
theorem C3_running_mean_loss (n b : ℕ) (hn : 0 < n) (hb : 0 < b)
    (lossOf : ℕ × ℕ → ℚ) :
    (runBatches lossOf (make_batches n b)).train_loss
      = some (((make_batches n b).map lossOf).sum / (n : ℚ)) ∧
    ∀ j, 0 < j → j ≤ (make_batches n b).length →
      (runBatches lossOf ((make_batches n b).take j)).train_loss
        = some ((((make_batches n b).take j).map lossOf).sum
            / ((((((make_batches n b).take j).map fun p => p.2 - p.1).sum : ℕ)) : ℚ)) := by
  constructor
  · unfold runBatches
    rw [(foldl_stepBatch lossOf (make_batches n b) ⟨0, 0, none⟩).2.2
      (make_batches_ne_nil hn hb)]
    simp [make_batches_sizes_sum hb]
  · intro j hj _
    have hne : (make_batches n b).take j ≠ [] := by
      rw [Ne, List.take_eq_nil_iff]
      push_neg
      exact ⟨by omega, make_batches_ne_nil hn hb⟩
    unfold runBatches
    rw [(foldl_stepBatch lossOf ((make_batches n b).take j) ⟨0, 0, none⟩).2.2 hne]
    simp

/-- Witness for C3 at `N = 10`, `B = 3`, with the batch-loss collaborator
returning the batch's start index as its loss value. -/
theorem C3_witness :
    (runBatches (fun p => (p.1 : ℚ)) (make_batches 10 3)).train_loss
      = some ((18 : ℚ) / 10) ∧
    (runBatches (fun p => (p.1 : ℚ)) ((make_batches 10 3).take 2)).train_loss
      = some ((3 : ℚ) / 6) := by
  have h := C3_running_mean_loss 10 3 (by decide) (by decide) (fun p => (p.1 : ℚ))
  have hmb : make_batches 10 3 = [(0, 3), (3, 6), (6, 9), (9, 10)] := by decide
  constructor
  · rw [h.1, hmb]
    norm_num
  · rw [h.2 2 (by decide) (by decide), hmb]
    norm_num

/-- The epoch counter values traversed by `fit`'s loop
`for t in range(initial_epoch, epochs)` (fit_module.py line 84). -/
def epochList (initial_epoch epochs : ℕ) : List ℕ :=
  List.range' initial_epoch (epochs - initial_epoch)

/-- The list of per-epoch logs returned by `fit` (fit_module.py lines 80-127),
with each log modelled by its `train_loss` entry (`none` when the entry was
never written).  `lossOf t p` is the collaborator-supplied loss value of batch
`p` in epoch `t`. -/
def fitLogs (n b initial_epoch epochs : ℕ) (lossOf : ℕ → ℕ × ℕ → ℚ) :
    List (Option ℚ) :=
  (epochList initial_epoch epochs).map fun t =>
    (runBatches (lossOf t) (make_batches n b)).train_loss

/-- C9: for every `initial_epoch ≤ epochs` (with at least one sample and a
positive batch size), `fit` executes exactly `epochs - initial_epoch` training
epochs — the epoch counter runs over the tail `initial_epoch, …, epochs - 1`
of the full epoch range, so the first `initial_epoch` epochs are not
replayed — and the returned list holds exactly one log per executed epoch,
each containing a `train_loss` entry. -/
theorem C9_one_log_per_epoch (n b ie ep : ℕ) (hn : 0 < n) (hb : 0 < b)
    (hie : ie ≤ ep) (lossOf : ℕ → ℕ × ℕ → ℚ) :
    (fitLogs n b ie ep lossOf).length = ep - ie ∧
    epochList ie ep = (List.range ep).drop ie ∧
    ∀ l ∈ fitLogs n b ie ep lossOf, ∃ q, l = some q := by
  refine ⟨?_, ?_, ?_⟩
  · simp [fitLogs, epochList]
  · rw [List.range_eq_range']
    have hsplit : List.range' 0 ep = List.range' 0 ie ++ List.range' ie (ep - ie) := by
      have h := List.range'_append 0 ie (ep - ie) 1
      simp only [Nat.one_mul, Nat.zero_add] at h
      have h2 : ep - ie + ie = ep := by omega
      rw [h2] at h
      exact h.symm
    rw [hsplit, List.drop_left' (List.length_range' 0 1 ie)]
    rfl
  · intro l hl
    obtain ⟨t, _, rfl⟩ := List.mem_map.mp hl
    exact ⟨_, (foldl_stepBatch (lossOf t) (make_batches n b) ⟨0, 0, none⟩).2.2
      (make_batches_ne_nil hn hb)⟩

/-- Witness for C9 with one sample, batch size one, `initial_epoch = 1`,
`epochs = 3`. -/
theorem C9_witness :
    (fitLogs 1 1 1 3 fun _ _ => 2).length = 3 - 1 ∧
    epochList 1 3 = (List.range 3).drop 1 ∧
    ∀ l ∈ fitLogs 1 1 1 3 (fun _ _ => 2), ∃ q, l = some q :=
  C9_one_log_per_epoch 1 1 1 3 (by decide) (by decide) (by decide) _

/-- The training/validation split index
`split = int(x.size()[0] * (1. - validation_split))` (fit_module.py line 72),
with Python floats modelled as rationals; on this nonnegative value Python's
truncating `int(...)` is the floor. -/
def splitIndex (n : ℕ) (validation_split : ℚ) : ℕ :=
  (⌊(n : ℚ) * (1 - validation_split)⌋).toNat

/-- Validation-data preparation of `fit` (fit_module.py lines 68-76): when
explicit `validation_data` is given it is used as the validation pair;
otherwise, when `validation_split` is truthy (nonzero) and strictly between 0
and 1, the tail of `x`/`y` from `splitIndex` on is split off as validation
data; otherwise there is no validation data.  Returns the (possibly truncated)
training pair together with the optional validation pair. -/
def prepareValidation {α : Type} (validation_data : Option (List α × List α))
    (validation_split : ℚ) (x y : List α) :
    (List α × List α) × Option (List α × List α) :=
  match validation_data with
  | some vd => ((x, y), some vd)
  | none =>
    if validation_split ≠ 0 ∧ 0 < validation_split ∧ validation_split < 1 then
      ((x.take (splitIndex x.length validation_split),
        y.take (splitIndex x.length validation_split)),
        some (x.drop (splitIndex x.length validation_split),
          y.drop (splitIndex x.length validation_split)))
    else ((x, y), none)

/-- C4: with no explicit validation data and a split fraction `f` strictly
between 0 and 1, `fit` trains on the first `int(N * (1 - f))` samples of
`x`/`y` and uses the remaining contiguous tail as validation data; for `f`
outside the open interval (0,1) no split is performed; and for `N = 10`,
`f = 1/5` (i.e. 0.2) the split index is 8, leaving 8 training and 2
validation samples. -/
theorem C4_validation_split {α : Type} (f : ℚ) (x y : List α) :
    (0 < f → f < 1 →
      prepareValidation none f x y =
        ((x.take (splitIndex x.length f), y.take (splitIndex x.length f)),
          some (x.drop (splitIndex x.length f), y.drop (splitIndex x.length f)))) ∧
    (f ≤ 0 ∨ 1 ≤ f → prepareValidation none f x y = ((x, y), none)) ∧
    splitIndex 10 (1 / 5) = 8 := by
  refine ⟨?_, ?_, ?_⟩
  · intro h1 h2
    unfold prepareValidation
    rw [if_pos ⟨ne_of_gt h1, h1, h2⟩]
  · intro h
    unfold prepareValidation
    rw [if_neg]
    rintro ⟨hne, h1, h2⟩
    rcases h with h | h
    · linarith
    · linarith
  · unfold splitIndex
    norm_num
    decide

/-- Witness for C4: a split of 0.2 on 10 samples trains on the first 8 and
validates on the last 2; a fraction of 2 performs no split. -/
theorem C4_witness :
    prepareValidation none (1 / 5 : ℚ) (List.range 10) (List.range 10) =
      (((List.range 10).take (splitIndex 10 (1 / 5)),
        (List.range 10).take (splitIndex 10 (1 / 5))),
        some ((List.range 10).drop (splitIndex 10 (1 / 5)),
          (List.range 10).drop (splitIndex 10 (1 / 5)))) ∧
    prepareValidation none (2 : ℚ) (List.range 10) (List.range 10) =
      ((List.range 10, List.range 10), none) ∧
    ((List.range 10).take (splitIndex 10 (1 / 5))).length = 8 ∧
    ((List.range 10).drop (splitIndex 10 (1 / 5))).length = 2 := by
  have h := C4_validation_split (1 / 5 : ℚ) (List.range 10) (List.range 10)
  have h2 := C4_validation_split (2 : ℚ) (List.range 10) (List.range 10)
  have hs : splitIndex 10 (1 / 5) = 8 := h.2.2
  refine ⟨by simpa using h.1 (by norm_num) (by norm_num), h2.2.1 (by norm_num), ?_, ?_⟩
  · rw [hs]
    simp
  · rw [hs]
    simp

/-- C5: `validation_split` and `validation_data` are mutually exclusive: when
explicit validation data is supplied the validation pair is exactly that data
and `x`/`y` are left whole, whatever the split fraction (the two sources are
never combined); a validation tail is split off `x`/`y` only when no explicit
validation data is given and the fraction lies strictly between 0 and 1. -/
theorem C5_mutual_exclusion {α : Type} (vd : List α × List α) (f : ℚ) (x y : List α) :
    prepareValidation (some vd) f x y = ((x, y), some vd) ∧
    ((prepareValidation none f x y).2.isSome → 0 < f ∧ f < 1) := by
  constructor
  · rfl
  · intro hs
    by_cases hc : f ≠ 0 ∧ 0 < f ∧ f < 1
    · exact ⟨hc.2.1, hc.2.2⟩
    · unfold prepareValidation at hs
      rw [if_neg hc] at hs
      simp at hs

/-- Witness for C5 with explicit validation data and split fraction 1/2. -/
theorem C5_witness :
    prepareValidation (some ([(1 : ℚ)], [(2 : ℚ)])) (1 / 2) [(3 : ℚ)] [(4 : ℚ)]
      = (([(3 : ℚ)], [(4 : ℚ)]), some ([(1 : ℚ)], [(2 : ℚ)])) ∧
    (0 : ℚ) < 1 / 2 ∧ (1 / 2 : ℚ) < 1 := by
  have h := C5_mutual_exclusion ([(1 : ℚ)], [(2 : ℚ)]) (1 / 2 : ℚ) [(3 : ℚ)] [(4 : ℚ)]
  refine ⟨h.1, h.2 ?_⟩
  unfold prepareValidation
  rw [if_pos (by norm_num)]
  rfl

/-- The seeding guard of `fit` (fit_module.py lines 65-67):
`if seed and seed >= 0: np.random.seed(seed)`.  The numpy generator is an
external collaborator, modelled by an abstract state type `G` with a seeding
function `seedState`; `g` is the ambient generator state on entry to `fit`.
Note Python truthiness: `seed = 0` is falsy, so the generator is reseeded only
for a nonzero, nonnegative seed. -/
def applySeed {G : Type} (seedState : ℤ → G) (seed : Option ℤ) (g : G) : G :=
  match seed with
  | none => g
  | some s => if s ≠ 0 ∧ 0 ≤ s then seedState s else g

/-- The successive shuffled index orders of `fit`'s epoch loop with
`shuffle=True` (fit_module.py lines 83-89): `train_idxs` starts as
`np.arange(n)` and is shuffled **in place** at the top of each of the `k`
epochs, threading the generator state `g` through `shuffleStep`. -/
def shuffleEpochs {G : Type} (shuffleStep : G → List ℕ → List ℕ × G) :
    ℕ → List ℕ → G → List (List ℕ)
  | 0, _, _ => []
  | k + 1, idxs, g =>
    (shuffleStep g idxs).1 ::
      shuffleEpochs shuffleStep k (shuffleStep g idxs).1 (shuffleStep g idxs).2

/-- The per-epoch shuffle orders produced by one call to
`fit(..., shuffle=True, seed=seed)` over `k` epochs on `n` samples, starting
from ambient generator state `g`. -/
def fitShuffleOrders {G : Type} (shuffleStep : G → List ℕ → List ℕ × G)
    (seedState : ℤ → G) (seed : Option ℤ) (g : G) (n k : ℕ) : List (List ℕ) :=
  shuffleEpochs shuffleStep k (List.range n) (applySeed seedState seed g)

/-- C8 counterexample: the claim quantifies over *every* seed value, but the
guard `if seed and seed >= 0:` skips seeding for the falsy seed `0`, so two
calls with `seed = 0` made from different ambient generator states (as two
successive calls in one process are) produce different shuffle orders.
Concrete instance: generator state is a number, seeding maps `s` to `s.toNat`,
the shuffle step reverses the index array unless the state is `0`; two runs
with `seed = 0` from ambient states `0` and `1` on two samples and one epoch
give the orders `[[0, 1]]` and `[[1, 0]]` respectively. -/
theorem C8_counterexample :
    fitShuffleOrders (fun (g : ℕ) l => (if g = 0 then l else l.reverse, g))
        (fun s => s.toNat) (some 0) 0 2 1
      ≠ fitShuffleOrders (fun (g : ℕ) l => (if g = 0 then l else l.reverse, g))
        (fun s => s.toNat) (some 0) 1 2 1 := by
  decide

/-- C8 (amended): for every seed value `s > 0` — exactly the seeds accepted by
the guard `if seed and seed >= 0:` — two calls to `fit` with that same fixed
seed, identical inputs and shuffle enabled produce identical shuffle orders
(and hence identical batch compositions) in every epoch, regardless of the
ambient generator states the two runs start from. -/
theorem C8_seed_determinism {G : Type} (shuffleStep : G → List ℕ → List ℕ × G)
    (seedState : ℤ → G) (s : ℤ) (hs : 0 < s) (g₁ g₂ : G) (n k : ℕ) :
    fitShuffleOrders shuffleStep seedState (some s) g₁ n k
      = fitShuffleOrders shuffleStep seedState (some s) g₂ n k := by
  have h1 : ∀ g : G, applySeed seedState (some s) g = seedState s := by
    intro g
    show (if s ≠ 0 ∧ 0 ≤ s then seedState s else g) = seedState s
    rw [if_pos ⟨by omega, by omega⟩]
  unfold fitShuffleOrders
  rw [h1, h1]

/-- Witness for C8 (amended) at seed 1, ambient states 0 and 5, three samples
and two epochs. -/
theorem C8_witness :
    fitShuffleOrders (fun (g : ℕ) l => (l.reverse, g + 1)) (fun s => s.toNat)
        (some 1) 0 3 2
      = fitShuffleOrders (fun (g : ℕ) l => (l.reverse, g + 1)) (fun s => s.toNat)
        (some 1) 5 3 2 :=
  C8_seed_determinism (fun (g : ℕ) l => (l.reverse, g + 1)) (fun s => s.toNat)
    1 (by decide) 0 5 3 2

/-- The training-mode flag (`self.train()` / `self.eval()`) at the end of one
epoch body of `fit`: when metrics are supplied, `fit` calls `self.predict`
(fit_module.py lines 118-123), and `predict` sets the module to evaluation
mode (`self.eval()`, line 144) without ever restoring training mode; with no
metrics the mode is unchanged. -/
def epochEndMode (metrics : Bool) (m : Bool) : Bool :=
  if metrics then false else m

/-- The training-mode flag in effect during the batch (forward/backward/update)
phase of each of `k` successive epochs, starting from mode `m`. -/
def modeTrace (metrics : Bool) : ℕ → Bool → List Bool
  | 0, _ => []
  | k + 1, m => m :: modeTrace metrics k (epochEndMode metrics m)

/-- The per-epoch training-mode flags of one `fit` call over `k` epochs:
`fit` calls `self.train()` once before the epoch loop (fit_module.py line 81),
so the trace starts in training mode. -/
def fitModes (metrics : Bool) (k : ℕ) : List Bool :=
  modeTrace metrics k true

/-- C10: when metrics are supplied to `fit` (so `predict` runs at the end of
every epoch and leaves the module in evaluation mode), the first epoch's batch
phase runs in training mode and every subsequent epoch's forward/backward/
update cycle runs with the module left in evaluation mode. -/
theorem C10_eval_mode_leak (k : ℕ) (hk : 0 < k) :
    fitModes true k = true :: List.replicate (k - 1) false := by
  have haux : ∀ m, modeTrace true m false = List.replicate m false := by
    intro m
    induction m with
    | zero => rfl
    | succ j ih =>
      rw [modeTrace, List.replicate_succ]
      rw [show epochEndMode true false = false from rfl, ih]
  obtain ⟨k', rfl⟩ : ∃ k', k = k' + 1 := ⟨k - 1, by omega⟩
  unfold fitModes
  rw [modeTrace]
  simp only [Nat.add_sub_cancel]
  rw [show epochEndMode true true = false from rfl, haux]

/-- Witness for C10 over three epochs. -/
theorem C10_witness :
    fitModes true 3 = true :: List.replicate (3 - 1) false :=
  C10_eval_mode_leak 3 (by decide)

/-- The indexed row assignment `y_pred[batch_idxs] = y_batch_pred`
(fit_module.py line 155) for a contiguous index block starting at `s`: rows
`s, …, s + rows.length - 1` of `ypred` are replaced by `rows`. -/
def writeRows (ypred : List (List ℚ)) (s : ℕ) (rows : List (List ℚ)) :
    List (List ℚ) :=
  ypred.take s ++ rows ++ ypred.drop (s + rows.length)

/-- `FitModule.predict` (fit_module.py lines 129-156): batch the
`n = x.size()[0]` input rows with `make_batches`, run the forward pass `f` on
each batch slice, allocate `y_pred = torch.zeros((n,) + y_batch_pred.size()[1:])`
at the first batch (the trailing shape is the first batch output's row width),
fill it block by block, and return it.  With zero samples there is no batch,
the loop body never assigns `y_pred`, and `return y_pred` raises
`UnboundLocalError`; this failure of `predict` itself is modelled as `none`. -/
def predict {α : Type} (f : List α → List (List ℚ)) (x : List α) (b : ℕ) :
    Option (List (List ℚ)) :=
  match make_batches x.length b with
  | [] => none
  | first :: rest =>
    some ((first :: rest).foldl
      (fun ypred p => writeRows ypred p.1 (f (listSlice x p.1 p.2)))
      (List.replicate x.length
        (List.replicate ((f (listSlice x first.1 first.2)).headD []).length (0 : ℚ))))

lemma predict_eq {α : Type} (f : List α → List (List ℚ)) (x : List α) (b : ℕ)
    (first : ℕ × ℕ) (rest : List (ℕ × ℕ))
    (hmb : make_batches x.length b = first :: rest) :
    predict f x b = some ((first :: rest).foldl
      (fun ypred p => writeRows ypred p.1 (f (listSlice x p.1 p.2)))
      (List.replicate x.length
        (List.replicate ((f (listSlice x first.1 first.2)).headD []).length (0 : ℚ)))) := by
  unfold predict
  rw [hmb]

/-- Filling a zero tensor block by block along adjacent ranges yields the
concatenation of the block outputs after the already-written prefix. -/
lemma foldl_writeRows {α : Type} (f : List α → List (List ℚ)) (x : List α)
    (hlen : ∀ l, (f l).length = l.length) :
    ∀ (bs : List (ℕ × ℕ)) (s : ℕ) (acc : List (List ℚ)),
      Adjacent s bs x.length → acc.length = x.length →
      bs.foldl (fun ypred p => writeRows ypred p.1 (f (listSlice x p.1 p.2))) acc
        = acc.take s ++ (bs.map fun p => f (listSlice x p.1 p.2)).flatten := by
  intro bs
  induction bs with
  | nil =>
    intro s acc hadj hacc
    simp only [Adjacent] at hadj
    rw [List.foldl_nil, List.map_nil, List.flatten_nil, List.append_nil]
    rw [List.take_of_length_le (by omega)]
  | cons p rest ih =>
    intro s acc hadj hacc
    simp only [Adjacent] at hadj
    obtain ⟨h1, h2, h3, h4⟩ := hadj
    subst h1
    rw [List.foldl_cons]
    have hrows : (f (listSlice x p.1 p.2)).length = p.2 - p.1 := by
      rw [hlen]
      unfold listSlice
      rw [List.length_take, List.length_drop]
      omega
    have hpe : p.1 + (f (listSlice x p.1 p.2)).length = p.2 := by
      rw [hrows]
      omega
    have hw : writeRows acc p.1 (f (listSlice x p.1 p.2))
        = (acc.take p.1 ++ f (listSlice x p.1 p.2)) ++ acc.drop p.2 := by
      unfold writeRows
      rw [hpe, List.append_assoc]
    have hacc' : ((acc.take p.1 ++ f (listSlice x p.1 p.2)) ++ acc.drop p.2).length
        = x.length := by
      rw [List.length_append, List.length_append, List.length_take,
        List.length_drop, hrows]
      omega
    rw [hw, ih p.2 _ h4 hacc']
    have htk : ((acc.take p.1 ++ f (listSlice x p.1 p.2)) ++ acc.drop p.2).take p.2
        = acc.take p.1 ++ f (listSlice x p.1 p.2) := by
      apply List.take_left'
      rw [List.length_append, List.length_take, hrows]
      omega
    rw [htk, List.map_cons, List.flatten_cons, List.append_assoc]

lemma make_batches_le {n b : ℕ} (hb : 0 < b) {p : ℕ × ℕ}
    (hp : p ∈ make_batches n b) : p.1 ≤ p.2 ∧ p.2 ≤ n := by
  rcases Nat.eq_zero_or_pos n with h0 | hn
  · subst h0
    rw [make_batches_zero] at hp
    simp at hp
  · unfold make_batches at hp
    obtain ⟨i, hi, rfl⟩ := List.mem_map.mp hp
    rw [List.mem_range, ceil_div_eq hb hn] at hi
    have h2 : i * b ≤ n - 1 := div_mul_le (by omega)
    have e1 : (i + 1) * b = i * b + b := add_one_mul i b
    constructor
    · show i * b ≤ min n ((i + 1) * b)
      rw [e1]
      generalize i * b = m at *
      omega
    · exact min_le_left _ _

/-- C6: for an input with at least one sample and a positive batch size, when
the forward pass returns one output row per input row, all rows of width `w`,
`predict` returns a tensor whose leading dimension equals the input sample
count, whose rows all have width `w` (the trailing shape of the first — and
every — batch's forward output), and which is exactly the in-order
concatenation of the per-batch forward outputs, so each output row is filled
from the forward pass of the batch containing it. -/
theorem C6_predict_shape {α : Type} (f : List α → List (List ℚ)) (x : List α)
    (b w : ℕ) (hx : 0 < x.length) (hb : 0 < b)
    (hlen : ∀ l, (f l).length = l.length)
    (hw : ∀ l, ∀ r ∈ f l, r.length = w) :
    ∃ ys, predict f x b = some ys ∧
      ys.length = x.length ∧
      (∀ r ∈ ys, r.length = w) ∧
      ys = ((make_batches x.length b).map fun p => f (listSlice x p.1 p.2)).flatten := by
  obtain ⟨first, rest, hmb⟩ := List.exists_cons_of_ne_nil (make_batches_ne_nil hx hb)
  refine ⟨((make_batches x.length b).map fun p => f (listSlice x p.1 p.2)).flatten,
    ?_, ?_, ?_, rfl⟩
  · rw [predict_eq f x b first rest hmb]
    have hadj : Adjacent 0 (first :: rest) x.length := by
      rw [← hmb]
      exact make_batches_adjacent hb x.length
    have hfold := foldl_writeRows f x hlen (first :: rest) 0
      (List.replicate x.length
        (List.replicate ((f (listSlice x first.1 first.2)).headD []).length (0 : ℚ)))
      hadj (List.length_replicate _ _)
    rw [hfold, List.take_zero, List.nil_append, hmb]
  · rw [List.length_flatten, List.map_map]
    have hcg : (make_batches x.length b).map
        (List.length ∘ fun p => f (listSlice x p.1 p.2))
        = (make_batches x.length b).map fun p : ℕ × ℕ => p.2 - p.1 := by
      apply List.map_congr_left
      intro p hp
      obtain ⟨hp1, hp2⟩ := make_batches_le hb hp
      simp only [Function.comp_apply]
      rw [hlen]
      unfold listSlice
      rw [List.length_take, List.length_drop]
      omega
    rw [hcg, make_batches_sizes_sum hb]
  · intro r hr
    obtain ⟨l, hl, hrl⟩ := List.mem_flatten.mp hr
    obtain ⟨p, _, rfl⟩ := List.mem_map.mp hl
    exact hw _ r hrl

/-- Witness for C6: three scalar samples, batch size 2, forward pass wrapping
each input value into a singleton row. -/
theorem C6_witness :
    ∃ ys, predict (fun l : List ℚ => l.map fun v => [v]) [1, 2, 3] 2 = some ys ∧
      ys.length = ([1, 2, 3] : List ℚ).length ∧
      (∀ r ∈ ys, r.length = 1) ∧
      ys = ((make_batches ([1, 2, 3] : List ℚ).length 2).map
        fun p => (fun l : List ℚ => l.map fun v => [v])
          (listSlice [1, 2, 3] p.1 p.2)).flatten :=
  C6_predict_shape (fun l : List ℚ => l.map fun v => [v]) [1, 2, 3] 2 1
    (by decide) (by decide) (fun l => by simp)
    (fun l r hr => by
      obtain ⟨v, hv, rfl⟩ := List.mem_map.mp hr
      rfl)

/-- C7: on an input with zero samples `make_batches` yields no batches, the
loop body of `predict` never runs, `y_pred` is never assigned, and
`return y_pred` fails with `UnboundLocalError` (modelled as `none`) — an
error condition of `predict` itself, arising even though the forward pass
(here the identity, which never fails) is never invoked. -/
theorem C7_predict_empty_input :
    predict (fun l : List (List ℚ) => l) ([] : List (List ℚ)) 32 = none := by
  decide

end FitModule
